import Mathlib

/-!
Shallow embedding of the sqlgen text codec (package encoding, file
encoding/encoding.go) and proofs about it.

Bytes are modelled as natural numbers (the relevant ASCII codes:
34 is the double quote, 40 is the opening paren, 41 the closing paren,
44 the comma, 92 the backslash, 123 the opening brace, 125 the closing
brace; 78 85 76 76 spell NULL).  Byte strings are lists of naturals.

Fallible control flow is explicit: Go runtime panics (out-of-range
slice indexing, division by zero) are a distinguished result
constructor, and loops whose progress is not structural carry a fuel
parameter; a run that exhausts its fuel returns none, so termination
statements are statements about sufficient fuel.
-/

/-- Errors produced by the codec.  The Go code builds them with
fmt.Errorf; each constructor records the data interpolated into the
corresponding message template. -/
inductive Err where
  | expectedAt (c : Nat) (off : Nat)
  | unexpectedAt (c : Nat) (off : Nat)
  | dimensionMismatch
  | unsupportedDimensionality (dims : List Nat) (typ : String)
deriving DecidableEq

/-- Outcome of parseArray: a dimension vector together with the flattened
element list (none marks SQL NULL, mirroring a nil byte slice), an
error, or a runtime panic (out-of-range index into dims, or division
by zero in the rectangularity loop). -/
inductive ArrResult where
  | ok (dims : List Nat) (elems : List (Option (List Nat)))
  | err (e : Err)
  | panicked
deriving DecidableEq

/-- Outcome of SplitBytes: the list of top-level field byte strings, or
an error. -/
inductive SplitResult where
  | ok (chunks : List (List Nat))
  | err (e : Err)
deriving DecidableEq

/-- Outcome of ScanLinearArray. -/
inductive LinResult where
  | ok (elems : List (Option (List Nat)))
  | err (e : Err)
  | panicked
deriving DecidableEq

/-- The four labelled phases of parseArray in the source: the Open run of
leading braces, the Element dispatch, the delimiter-or-close loop that
follows a recorded element, and the Close loop. -/
inductive Phase where
  | opn | elt | dlm | cls
deriving DecidableEq

/-- The 4 ASCII bytes NULL, the case-sensitive array NULL sentinel. -/
def nullBytes : List Nat := [78, 85, 76, 76]

/-- The quoted-element scan of parseArray (the case of a double quote in
the Element phase): consume bytes after the opening quote, a backslash
escaping the next byte, until an unescaped closing quote.  Returns the
decoded element together with the number of bytes consumed including
the closing quote, or none when input ends before the closing quote. -/
def scanQuotedCnt : List Nat → Bool → List Nat → Option (List Nat × Nat)
  | [], _, _ => none
  | c :: rest, true, acc =>
    (scanQuotedCnt rest false (acc ++ [c])).map (fun p => (p.1, p.2 + 1))
  | c :: rest, false, acc =>
    if c = 92 then (scanQuotedCnt rest true acc).map (fun p => (p.1, p.2 + 1))
    else if c = 34 then some (acc, 1)
    else (scanQuotedCnt rest false (acc ++ [c])).map (fun p => (p.1, p.2 + 1))

/-- The unquoted-element scan of parseArray: offset of the first position
at which the delimiter token is a prefix of the remaining input or the
byte is a closing brace, or none when no such position exists. -/
def findStop (del : List Nat) : List Nat → Option Nat
  | [] => none
  | c :: rest =>
    if del.isPrefixOf (c :: rest) ∨ c = 125 then some 0
    else (findStop del rest).map (fun k => k + 1)

/-- One fueled pass of the parseArray state machine, dispatching on the
current phase.  i is the scan position, depth the current brace depth,
dims the dimension vector (created as a zero vector when the Open phase
ends) and elems the flattened elements recorded so far.  Writes
dims[depth-1] are guarded exactly as Go bounds-checks them: an index
outside the vector panics. -/
def parseLoop (src del : List Nat) :
    Nat → Phase → Nat → Nat → List Nat → List (Option (List Nat)) → Option ArrResult
  | 0, _, _, _, _, _ => none
  | fuel + 1, Phase.opn, i, depth, _, _ =>
    match src[i]? with
    | some c =>
      if c = 123 then parseLoop src del fuel Phase.opn (i + 1) (depth + 1) [] []
      else if c = 125 then parseLoop src del fuel Phase.cls i depth [] []
      else parseLoop src del fuel Phase.elt i depth (List.replicate i 0) []
    | none => parseLoop src del fuel Phase.elt i depth (List.replicate i 0) []
  | fuel + 1, Phase.elt, i, depth, dims, elems =>
    match src[i]? with
    | some c =>
      if c = 123 then
        if depth < dims.length then
          parseLoop src del fuel Phase.elt (i + 1) (depth + 1) (dims.set depth 0) elems
        else some ArrResult.panicked
      else if c = 34 then
        match scanQuotedCnt (src.drop (i + 1)) false [] with
        | some en =>
          parseLoop src del fuel Phase.dlm (i + 1 + en.2) depth dims (elems ++ [some en.1])
        | none => parseLoop src del fuel Phase.dlm src.length depth dims elems
      else
        match findStop del (src.drop i) with
        | some k =>
          if k = 0 then some (ArrResult.err (Err.unexpectedAt c i))
          else
            parseLoop src del fuel Phase.dlm (i + k) depth dims
              (elems ++ [if (src.drop i).take k = nullBytes then none
                         else some ((src.drop i).take k)])
        | none => parseLoop src del fuel Phase.dlm src.length depth dims elems
    | none => parseLoop src del fuel Phase.dlm i depth dims elems
  | fuel + 1, Phase.dlm, i, depth, dims, elems =>
    match src[i]? with
    | some c =>
      if del.isPrefixOf (src.drop i) then
        if 1 ≤ depth ∧ depth ≤ dims.length then
          parseLoop src del fuel Phase.elt (i + del.length) depth
            (dims.set (depth - 1) (dims.getD (depth - 1) 0 + 1)) elems
        else some ArrResult.panicked
      else if c = 125 then
        if 1 ≤ depth ∧ depth ≤ dims.length then
          parseLoop src del fuel Phase.dlm (i + 1) (depth - 1)
            (dims.set (depth - 1) (dims.getD (depth - 1) 0 + 1)) elems
        else some ArrResult.panicked
      else some (ArrResult.err (Err.unexpectedAt c i))
    | none => parseLoop src del fuel Phase.cls i depth dims elems
  | fuel + 1, Phase.cls, i, depth, dims, elems =>
    match src[i]? with
    | some c =>
      if c = 125 ∧ 0 < depth then parseLoop src del fuel Phase.cls (i + 1) (depth - 1) dims elems
      else some (ArrResult.err (Err.unexpectedAt c i))
    | none =>
      if 0 < depth then some (ArrResult.err (Err.expectedAt 125 i))
      else if 0 ∈ dims then some ArrResult.panicked
      else if ∃ d ∈ dims, ¬ elems.length % d = 0 then some (ArrResult.err Err.dimensionMismatch)
      else some (ArrResult.ok dims elems)

/-- parseArray: reject inputs not starting with an opening brace, then run
the four-phase state machine from position 0 at depth 0. -/
def parseArray (src del : List Nat) (fuel : Nat) : Option ArrResult :=
  match src[0]? with
  | some c =>
    if c = 123 then parseLoop src del fuel Phase.opn 0 0 [] []
    else some (ArrResult.err (Err.expectedAt 123 0))
  | none => some (ArrResult.err (Err.expectedAt 123 0))

/-- Fuel that always suffices for parseArray (proved below). -/
def parseArrayRun (src del : List Nat) : Option ArrResult :=
  parseArray src del (5 * src.length + 8)

/-- ScanLinearArray: run parseArray and reject dimension vectors of length
greater than one with an error naming the attempted target type. -/
def ScanLinearArray (src del : List Nat) (typ : String) (fuel : Nat) : Option LinResult :=
  match parseArray src del fuel with
  | none => none
  | some (ArrResult.err e) => some (LinResult.err e)
  | some ArrResult.panicked => some LinResult.panicked
  | some (ArrResult.ok dims elems) =>
    if 1 < dims.length then some (LinResult.err (Err.unsupportedDimensionality dims typ))
    else some (LinResult.ok elems)

/-- ScanLinearArray at the always-sufficient fuel. -/
def ScanLinearArrayRun (src del : List Nat) (typ : String) : Option LinResult :=
  ScanLinearArray src del typ (5 * src.length + 8)

/-- State of the SplitBytes scan loop: the reader position inside the
bytes following the opening paren, the completed chunks, the element
being accumulated, the previously processed byte (the zero byte before
any iteration), the paren depth (1 after the opening paren) and the
quoted flag. -/
structure CState where
  pos : Nat
  chunks : List (List Nat)
  elem : List Nat
  prev : Nat
  depth : Nat
  quoted : Bool
deriving DecidableEq

/-- One iteration of the SplitBytes loop over the byte sequence t that
follows the opening paren.  Next on an exhausted bytes.Reader yields the
zero byte with io.EOF, which the loop ignores, and leaves the position
unchanged; Peek after reading a quote returns the next byte without
moving, except at end of input where the uncompensated Seek(-1, 1)
moves the position back one byte. -/
def splitStep (t : List Nat) (s : CState) : CState :=
  let b := t.getD s.pos 0
  let pos1 := if s.pos < t.length then s.pos + 1 else s.pos
  if b = 41 then
    if s.quoted then
      { s with pos := pos1, elem := s.elem ++ [b], prev := b }
    else
      { s with pos := pos1, depth := s.depth - 1, chunks := s.chunks ++ [s.elem], prev := b }
  else if b = 34 then
    if pos1 < t.length then
      if t.getD pos1 0 = 34 then
        { s with pos := pos1 + 1, elem := s.elem ++ [b], prev := b }
      else if s.prev = 92 then
        { s with pos := pos1, elem := s.elem ++ [b], prev := b }
      else
        { s with pos := pos1, quoted := ¬ s.quoted, prev := b }
    else
      if s.prev = 92 then
        { s with pos := pos1 - 1, elem := s.elem ++ [b], prev := b }
      else
        { s with pos := pos1 - 1, quoted := ¬ s.quoted, prev := b }
  else if b = 44 then
    if s.quoted then
      { s with pos := pos1, elem := s.elem ++ [b], prev := b }
    else
      { s with pos := pos1, chunks := s.chunks ++ [s.elem], elem := [], prev := b }
  else
    { s with pos := pos1, elem := s.elem ++ [b], prev := b }

/-- The SplitBytes loop: iterate splitStep until depth reaches 0, within
the given fuel. -/
def runSplit (t : List Nat) : Nat → CState → Option (List (List Nat))
  | 0, _ => none
  | fuel + 1, s => if s.depth = 0 then some s.chunks else runSplit t fuel (splitStep t s)

/-- SplitBytes: reject inputs not starting with an opening paren, then
run the scan loop over the remaining bytes from depth 1. -/
def SplitBytes (src : List Nat) (fuel : Nat) : Option SplitResult :=
  match src[0]? with
  | some c =>
    if c = 40 then (runSplit (src.drop 1) fuel (CState.mk 0 [] [] 0 1 false)).map SplitResult.ok
    else some (SplitResult.err (Err.expectedAt 40 0))
  | none => some (SplitResult.err (Err.expectedAt 40 0))

/-- SplitBytes with fuel that suffices for every terminating run. -/
def SplitBytesRun (src : List Nat) : Option SplitResult :=
  SplitBytes src (2 * src.length + 4)

/-- First index at which the value holds a double quote or a backslash:
the bytes.IndexAny scan of AppendArrayQuotedBytes. -/
def indexAnyQuoteBackslash : List Nat → Option Nat
  | [] => none
  | c :: rest =>
    if c = 34 ∨ c = 92 then some 0
    else (indexAnyQuoteBackslash rest).map (fun k => k + 1)

/-- The copy loop of AppendArrayQuotedBytes: copy the prefix before the
next quote or backslash verbatim, emit the escaping backslash and the
offending byte, and continue with the remainder; copy the remainder
once no further occurrence exists. -/
def aaqbLoop (b v : List Nat) : List Nat :=
  match h : indexAnyQuoteBackslash v with
  | none => b ++ v
  | some i => aaqbLoop (b ++ v.take i ++ [92, v.getD i 0]) (v.drop (i + 1))
termination_by v.length
decreasing_by
  simp_wf
  have hv : v ≠ [] := by
    intro hnil
    rw [hnil] at h
    simp [indexAnyQuoteBackslash] at h
  have hl : 0 < v.length := List.length_pos.mpr hv
  omega

/-- AppendArrayQuotedBytes: opening quote, the escaping copy loop, and
the closing quote. -/
def AppendArrayQuotedBytes (b v : List Nat) : List Nat :=
  aaqbLoop (b ++ [34]) v ++ [34]

/-- Byte-by-byte characterization of the escaping copy loop: every quote
or backslash is preceded by a backslash, all other bytes are copied
verbatim. -/
def escapeBytes : List Nat → List Nat
  | [] => []
  | c :: rest =>
    if c = 34 ∨ c = 92 then 92 :: c :: escapeBytes rest else c :: escapeBytes rest

/-- Decoding a fragment as a single quoted array element: the Element
phase of parseArray dispatching on an opening double quote and running
its quoted-element scan. -/
def decodeQuotedElement : List Nat → Option (List Nat × Nat)
  | [] => none
  | c :: rest => if c = 34 then scanQuotedCnt rest false [] else none

/-- Fuel bound per phase and position that suffices for the parseArray
state machine to finish (proved below): the scan position never
decreases, the delimiter-or-close phase re-enters the Element phase
only after recording an element, and the Close loop consumes one byte
per step. -/
def pfuel (src : List Nat) : Phase → Nat → Nat
  | Phase.opn, i => 5 * (src.length - i) + 6
  | Phase.elt, i => if i < src.length then 4 * (src.length - i) + 2 else 4
  | Phase.dlm, i => 4 * (src.length - i) + 3
  | Phase.cls, i => (src.length - i) + 1

/-- The target type name used in the worked ScanLinearArray examples. -/
def int4 : String := "int4"

/-- Unfolding of the encoder copy loop when no quote or backslash
remains: the remainder is copied verbatim. -/
lemma aaqbLoop_of_none (b v : List Nat) (h : indexAnyQuoteBackslash v = none) :
    aaqbLoop b v = b ++ v := by
  rw [aaqbLoop]
  split
  · rfl
  · rename_i i heq
    rw [h] at heq
    cases heq

/-- Unfolding of the encoder copy loop at the first quote or backslash:
copy the clean prefix, the escaping backslash and the offending byte,
and continue with the remainder. -/
lemma aaqbLoop_of_some (b v : List Nat) (i : Nat) (h : indexAnyQuoteBackslash v = some i) :
    aaqbLoop b v = aaqbLoop (b ++ v.take i ++ [92, v.getD i 0]) (v.drop (i + 1)) := by
  rw [aaqbLoop]
  split
  · rename_i heq
    rw [h] at heq
    cases heq
  · rename_i j heq
    rw [h] at heq
    cases heq
    simp [List.getD, List.append_assoc]

/-- The copy loop consumes a leading quote or backslash by emitting the
escaping backslash before it. -/
lemma aaqbLoop_cons_special (b rest : List Nat) (c : Nat) (hc : c = 34 ∨ c = 92) :
    aaqbLoop b (c :: rest) = aaqbLoop (b ++ [92, c]) rest := by
  rw [aaqbLoop_of_some b (c :: rest) 0 (by simp [indexAnyQuoteBackslash, hc])]
  simp

/-- The copy loop copies any other leading byte verbatim. -/
lemma aaqbLoop_cons_plain (b rest : List Nat) (c : Nat) (hc : ¬ (c = 34 ∨ c = 92)) :
    aaqbLoop b (c :: rest) = aaqbLoop (b ++ [c]) rest := by
  have h0 : indexAnyQuoteBackslash (c :: rest) =
      (indexAnyQuoteBackslash rest).map (fun k => k + 1) := by
    simp [indexAnyQuoteBackslash, hc]
  rcases hrest : indexAnyQuoteBackslash rest with _ | j
  · rw [aaqbLoop_of_none b (c :: rest) (by rw [h0, hrest]; rfl),
        aaqbLoop_of_none (b ++ [c]) rest hrest]
    simp
  · rw [aaqbLoop_of_some b (c :: rest) (j + 1) (by rw [h0, hrest]; rfl),
        aaqbLoop_of_some (b ++ [c]) rest j hrest]
    simp [List.getD_cons_succ, List.append_assoc]

/-- The index-based copy loop of the source equals the byte-by-byte
escaping map. -/
lemma aaqbLoop_escape (v : List Nat) : ∀ b, aaqbLoop b v = b ++ escapeBytes v := by
  induction v with
  | nil =>
    intro b
    rw [aaqbLoop_of_none b [] (by simp [indexAnyQuoteBackslash])]
    simp [escapeBytes]
  | cons c rest ih =>
    intro b
    by_cases hc : c = 34 ∨ c = 92
    · rw [aaqbLoop_cons_special b rest c hc, ih]
      simp [escapeBytes, hc, List.append_assoc]
    · rw [aaqbLoop_cons_plain b rest c hc, ih]
      simp [escapeBytes, hc, List.append_assoc]

/-- The quoted-element scan of parseArray undoes the escaping map: after
the escaped bytes it finds the unescaped closing quote and returns the
original value, whatever bytes follow and whatever was accumulated. -/
lemma scanQuoted_escape (v : List Nat) : ∀ acc rest,
    scanQuotedCnt (escapeBytes v ++ 34 :: rest) false acc =
      some (acc ++ v, (escapeBytes v).length + 1) := by
  induction v with
  | nil => intro acc rest; simp [escapeBytes, scanQuotedCnt]
  | cons c w ih =>
    intro acc rest
    by_cases hc : c = 34 ∨ c = 92
    · simp only [escapeBytes, if_pos hc, List.cons_append, List.length_cons]
      simp [scanQuotedCnt, ih (acc ++ [c]) rest]
    · have hc34 : ¬ c = 34 := fun h => hc (Or.inl h)
      have hc92 : ¬ c = 92 := fun h => hc (Or.inr h)
      simp only [escapeBytes, if_neg hc, List.cons_append, List.length_cons]
      simp [scanQuotedCnt, hc34, hc92, ih (acc ++ [c]) rest]

/-- Claim C1: for every buffer b and every raw value v (including the empty
string), decoding the fragment appended by AppendArrayQuotedBytes b v
as a single quoted array element (the quoted-element branch of
parseArray, with backslash escaping the next byte and an unescaped
double quote terminating) yields back exactly v, consuming the whole
appended fragment. -/
theorem c1_quoted_element_roundtrip (b v : List Nat) :
    ∃ n, decodeQuotedElement ((AppendArrayQuotedBytes b v).drop b.length) = some (v, n) ∧
      b.length + 1 + n = (AppendArrayQuotedBytes b v).length := by
  have hA : AppendArrayQuotedBytes b v = b ++ (34 :: (escapeBytes v ++ [34])) := by
    unfold AppendArrayQuotedBytes
    rw [aaqbLoop_escape]
    simp [List.append_assoc]
  refine ⟨(escapeBytes v).length + 1, ?_, ?_⟩
  · rw [hA, List.drop_left]
    have h34 : escapeBytes v ++ [34] = escapeBytes v ++ 34 :: [] := rfl
    simp [decodeQuotedElement, h34, scanQuoted_escape v [] []]
  · rw [hA]
    simp [List.length_append]
    omega

/-- A position holding some byte is inside the list. -/
lemma getElem?_some_lt {l : List Nat} {i c : Nat} (h : l[i]? = some c) : i < l.length := by
  by_contra hge
  rw [List.getElem?_eq_none (by omega)] at h
  cases h

/-- A position holding no byte is past the end of the list. -/
lemma getElem?_none_le {l : List Nat} {i : Nat} (h : l[i]? = none) : l.length ≤ i := by
  by_contra hlt
  rw [List.getElem?_eq_getElem (by omega)] at h
  cases h

/-- Once the SplitBytes scan position has reached the end of its input
with the paren depth still positive, the loop never terminates: Next
keeps yielding the zero byte (its io.EOF is ignored), the position
stays put, and the depth never reaches 0. -/
lemma runSplit_stuck_eof (t : List Nat) :
    ∀ fuel s, s.depth ≠ 0 → t.length ≤ s.pos → runSplit t fuel s = none := by
  intro fuel
  induction fuel with
  | zero => intro s _ _; rfl
  | succ fuel ih =>
    intro s hd hp
    rw [runSplit, if_neg hd]
    have hb : t[s.pos]? = none := List.getElem?_eq_none hp
    have hlt : ¬ s.pos < t.length := by omega
    have hstep : splitStep t s = { s with elem := s.elem ++ [0], prev := 0 } := by
      simp [splitStep, List.getD, hb, hlt]
    rw [hstep]
    exact ih _ hd hp

/-- When the last input byte is a double quote and the depth is still
positive, the SplitBytes loop never terminates: the Peek at end of
input seeks the reader back one byte, so the quote is re-read forever,
toggling the quoted flag each time. -/
lemma runSplit_stuck_quote (t : List Nat) :
    ∀ fuel s, s.depth ≠ 0 → s.pos + 1 = t.length → t.getD s.pos 0 = 34 →
      runSplit t fuel s = none := by
  intro fuel
  induction fuel with
  | zero => intro s _ _ _; rfl
  | succ fuel ih =>
    intro s hd hp hb
    rw [runSplit, if_neg hd]
    have hlt : s.pos < t.length := by omega
    have hb2 : t[s.pos] = 34 := (List.getD_eq_getElem t 0 hlt).symm.trans hb
    have hp1 : ¬ (s.pos + 1 < t.length) := by omega
    by_cases hprev : s.prev = 92
    · have hstep : splitStep t s = { s with elem := s.elem ++ [34], prev := 34 } := by
        simp [splitStep, List.getD, hlt, hb2, hp1, hprev]
      rw [hstep]
      exact ih _ hd hp hb
    · have hstep : splitStep t s = { s with quoted := ¬ s.quoted, prev := 34 } := by
        simp [splitStep, List.getD, hlt, hb2, hp1, hprev]
      rw [hstep]
      exact ih _ hd hp hb

/-- One SplitBytes step never moves the position past the end of the
input. -/
lemma splitStep_pos_le (t : List Nat) (s : CState) (h : s.pos ≤ t.length) :
    (splitStep t s).pos ≤ t.length := by
  simp only [splitStep]
  split_ifs <;> simp_all <;> omega

/-- A SplitBytes step that reads a byte strictly inside the input, and is
not the quote-at-last-byte step, is unaffected by bytes appended after
the input. -/
lemma splitStep_append (t extra : List Nat) (s : CState) (h : s.pos < t.length)
    (hq : ¬ (t.getD s.pos 0 = 34 ∧ s.pos + 1 = t.length)) :
    splitStep (t ++ extra) s = splitStep t s := by
  have h2 : s.pos < (t ++ extra).length := by
    rw [List.length_append]; omega
  have hb : (t ++ extra).getD s.pos 0 = t.getD s.pos 0 := List.getD_append t extra 0 s.pos h
  have hb1 : (t ++ extra)[s.pos] = t[s.pos] := by
    rw [← List.getD_eq_getElem (t ++ extra) 0 h2, ← List.getD_eq_getElem t 0 h, hb]
  have e1 : (t ++ extra)[s.pos]?.getD 0 = t[s.pos] := by
    rw [List.getElem?_eq_getElem h2, hb1]
    rfl
  have e2 : t[s.pos]?.getD 0 = t[s.pos] := by
    rw [List.getElem?_eq_getElem h]
    rfl
  have hlen : s.pos < t.length + extra.length := by omega
  by_cases h34 : t[s.pos] = 34
  · have hb34 : t.getD s.pos 0 = 34 := by rw [List.getD_eq_getElem t 0 h]; exact h34
    have hne : s.pos + 1 ≠ t.length := fun he => hq ⟨hb34, he⟩
    have hlt1 : s.pos + 1 < t.length := by omega
    have hlt1e : s.pos + 1 < (t ++ extra).length := by rw [List.length_append]; omega
    have hlen1 : s.pos + 1 < t.length + extra.length := by omega
    have hp1 : (t ++ extra)[s.pos + 1] = t[s.pos + 1] := by
      rw [← List.getD_eq_getElem (t ++ extra) 0 hlt1e, ← List.getD_eq_getElem t 0 hlt1,
        List.getD_append t extra 0 (s.pos + 1) hlt1]
    have e3 : (t ++ extra)[s.pos + 1]?.getD 0 = t[s.pos + 1] := by
      rw [List.getElem?_eq_getElem hlt1e, hp1]
      rfl
    have e4 : t[s.pos + 1]?.getD 0 = t[s.pos + 1] := by
      rw [List.getElem?_eq_getElem hlt1]
      rfl
    simp [splitStep, List.getD, h, h2, hb1, hp1, e1, e2, e3, e4, h34, hlt1, hlt1e, hlen, hlen1]
  · simp [splitStep, List.getD, h, h2, hb1, e1, e2, h34, hlen]

/-- A terminating SplitBytes run reads only bytes of its own input: the
same run over the input extended by arbitrary bytes returns the same
chunks.  Non-terminating configurations (position at the end, or a
quote as the last byte) are ruled out by the stuck lemmas. -/
lemma runSplit_append (t extra : List Nat) :
    ∀ fuel s cs, s.pos ≤ t.length → runSplit t fuel s = some cs →
      runSplit (t ++ extra) fuel s = some cs := by
  intro fuel
  induction fuel with
  | zero => intro s cs _ h; cases h
  | succ fuel ih =>
    intro s cs hpos h
    by_cases hd : s.depth = 0
    · rw [runSplit, if_pos hd] at h ⊢
      exact h
    · have hlt : s.pos < t.length := by
        rcases Nat.lt_or_ge s.pos t.length with hlt | hge
        · exact hlt
        · exact absurd h (by rw [runSplit_stuck_eof t (fuel + 1) s hd hge]; exact fun he => by cases he)
      by_cases hquote : t.getD s.pos 0 = 34 ∧ s.pos + 1 = t.length
      · exact absurd h
          (by rw [runSplit_stuck_quote t (fuel + 1) s hd hquote.2 hquote.1]; exact fun he => by cases he)
      · rw [runSplit, if_neg hd] at h ⊢
        rw [splitStep_append t extra s hlt hquote]
        exact ih (splitStep t s) cs (splitStep_pos_le t s hpos) h

/-- Every phase of the parseArray state machine finishes within the
pfuel bound: run with at least that much fuel, it returns a result, an
error or a panic, never none. -/
theorem parseLoop_total (src del : List Nat) :
    ∀ fuel ph i depth dims elems, pfuel src ph i ≤ fuel →
      parseLoop src del fuel ph i depth dims elems ≠ none := by
  intro fuel
  induction fuel with
  | zero =>
    intro ph i depth dims elems h
    cases ph <;> simp only [pfuel] at h
    case elt => split at h <;> omega
    all_goals omega
  | succ fuel ih =>
    intro ph i depth dims elems h
    cases ph with
    | opn =>
      simp only [pfuel] at h
      rw [parseLoop]
      split
      · rename_i c heq
        have hi : i < src.length := getElem?_some_lt heq
        by_cases h123 : c = 123
        · rw [if_pos h123]
          exact ih Phase.opn (i + 1) (depth + 1) [] [] (by simp only [pfuel]; omega)
        · rw [if_neg h123]
          by_cases h125 : c = 125
          · rw [if_pos h125]
            exact ih Phase.cls i depth [] [] (by simp only [pfuel]; omega)
          · rw [if_neg h125]
            exact ih Phase.elt i depth (List.replicate i 0) []
              (by simp only [pfuel]; rw [if_pos hi]; omega)
      · rename_i heq
        have hi : src.length ≤ i := getElem?_none_le heq
        exact ih Phase.elt i depth (List.replicate i 0) []
          (by simp only [pfuel]; rw [if_neg (by omega)]; omega)
    | elt =>
      simp only [pfuel] at h
      rw [parseLoop]
      split
      · rename_i c heq
        have hi : i < src.length := getElem?_some_lt heq
        rw [if_pos hi] at h
        by_cases h123 : c = 123
        · rw [if_pos h123]
          by_cases hdl : depth < dims.length
          · rw [if_pos hdl]
            exact ih Phase.elt (i + 1) (depth + 1) (dims.set depth 0) elems
              (by simp only [pfuel]; split_ifs <;> omega)
          · rw [if_neg hdl]
            simp
        · rw [if_neg h123]
          by_cases h34 : c = 34
          · rw [if_pos h34]
            split
            · rename_i en hq
              exact ih Phase.dlm (i + 1 + en.2) depth dims (elems ++ [some en.1])
                (by simp only [pfuel]; omega)
            · exact ih Phase.dlm src.length depth dims elems (by simp only [pfuel]; omega)
          · rw [if_neg h34]
            split
            · rename_i k hk
              by_cases hk0 : k = 0
              · rw [if_pos hk0]
                simp
              · rw [if_neg hk0]
                exact ih Phase.dlm (i + k) depth dims
                  (elems ++ [if (src.drop i).take k = nullBytes then none
                             else some ((src.drop i).take k)])
                  (by simp only [pfuel]; omega)
            · exact ih Phase.dlm src.length depth dims elems (by simp only [pfuel]; omega)
      · rename_i heq
        have hi : src.length ≤ i := getElem?_none_le heq
        rw [if_neg (by omega)] at h
        exact ih Phase.dlm i depth dims elems (by simp only [pfuel]; omega)
    | dlm =>
      simp only [pfuel] at h
      rw [parseLoop]
      split
      · rename_i c heq
        have hi : i < src.length := getElem?_some_lt heq
        by_cases hpre : del.isPrefixOf (src.drop i) = true
        · rw [if_pos hpre]
          by_cases hg : 1 ≤ depth ∧ depth ≤ dims.length
          · rw [if_pos hg]
            exact ih Phase.elt (i + del.length) depth
              (dims.set (depth - 1) (dims.getD (depth - 1) 0 + 1)) elems
              (by simp only [pfuel]; split_ifs <;> omega)
          · rw [if_neg hg]
            simp
        · rw [if_neg hpre]
          by_cases h125 : c = 125
          · rw [if_pos h125]
            by_cases hg : 1 ≤ depth ∧ depth ≤ dims.length
            · rw [if_pos hg]
              exact ih Phase.dlm (i + 1) (depth - 1)
                (dims.set (depth - 1) (dims.getD (depth - 1) 0 + 1)) elems
                (by simp only [pfuel]; omega)
            · rw [if_neg hg]
              simp
          · rw [if_neg h125]
            simp
      · rename_i heq
        have hi : src.length ≤ i := getElem?_none_le heq
        exact ih Phase.cls i depth dims elems (by simp only [pfuel]; omega)
    | cls =>
      simp only [pfuel] at h
      rw [parseLoop]
      split
      · rename_i c heq
        have hi : i < src.length := getElem?_some_lt heq
        by_cases hcd : c = 125 ∧ 0 < depth
        · rw [if_pos hcd]
          exact ih Phase.cls (i + 1) (depth - 1) dims elems (by simp only [pfuel]; omega)
        · rw [if_neg hcd]
          simp
      · split_ifs <;> simp

/-- Any ok result of the parseArray state machine passed the final
rectangularity gate: the flattened element count is divisible by every
dimension entry. -/
theorem parseLoop_rect (src del : List Nat) :
    ∀ fuel ph i depth dims0 elems0 dims elems,
      parseLoop src del fuel ph i depth dims0 elems0 = some (ArrResult.ok dims elems) →
      ∀ d ∈ dims, elems.length % d = 0 := by
  intro fuel
  induction fuel with
  | zero =>
    intro ph i depth dims0 elems0 dims elems h
    cases h
  | succ fuel ih =>
    intro ph i depth dims0 elems0 dims elems h
    cases ph with
    | opn =>
      rw [parseLoop] at h
      split at h
      · split_ifs at h
        · exact ih _ _ _ _ _ _ _ h
        · exact ih _ _ _ _ _ _ _ h
        · exact ih _ _ _ _ _ _ _ h
      · exact ih _ _ _ _ _ _ _ h
    | elt =>
      rw [parseLoop] at h
      split at h
      · split_ifs at h
        · exact ih _ _ _ _ _ _ _ h
        · simp at h
        · split at h
          · exact ih _ _ _ _ _ _ _ h
          · exact ih _ _ _ _ _ _ _ h
        · split at h
          · split_ifs at h
            · simp at h
            · exact ih _ _ _ _ _ _ _ h
            · exact ih _ _ _ _ _ _ _ h
          · exact ih _ _ _ _ _ _ _ h
      · exact ih _ _ _ _ _ _ _ h
    | dlm =>
      rw [parseLoop] at h
      split at h
      · split_ifs at h
        · exact ih _ _ _ _ _ _ _ h
        · simp at h
        · exact ih _ _ _ _ _ _ _ h
        · simp at h
        · simp at h
      · exact ih _ _ _ _ _ _ _ h
    | cls =>
      rw [parseLoop] at h
      split at h
      · split_ifs at h
        · exact ih _ _ _ _ _ _ _ h
        · simp at h
      · split_ifs at h with h1 h2 h3
        · simp at h
        · simp at h
        · simp at h
        · simp only [Option.some.injEq, ArrResult.ok.injEq] at h
          obtain ⟨hd, he⟩ := h
          subst hd
          subst he
          push_neg at h3
          intro d hd'
          exact h3 d hd'

/-- Claim C2 counterexample: parseArray is not total.  On the input
braces-1-comma-brace-2 (the literal bytes of the string with shape
one leading brace then a nested sub-array, as in 1,then-brace-2) with
delimiter comma, the Element phase meets an opening brace at depth
equal to the length of the dims vector, and the write dims[depth-1]
is out of bounds: the call crashes instead of returning a result or an
error. -/
theorem c2_counterexample :
    parseArrayRun [123, 49, 44, 123, 50, 125, 125] [44] = some ArrResult.panicked := by
  decide

/-- Claim C2 amended: parseArray always terminates, returning a fully
valid result, an error, or a runtime panic; but the dims writes do not
always stay in bounds.  5 times the input length plus 8 fuel always
suffices, and the delimiter-phase increment dims[depth-1] underruns the
vector at depth 0 on input brace-1-brace-comma. -/
theorem c2_parse_array_terminates_or_panics :
    (∀ src del, (parseArray src del (5 * src.length + 8)).isSome = true) ∧
      parseArrayRun [123, 49, 125, 44] [44] = some ArrResult.panicked := by
  constructor
  · intro src del
    apply Option.isSome_iff_ne_none.mpr
    rw [parseArray]
    split
    · rename_i c heq
      by_cases hc : c = 123
      · rw [if_pos hc]
        exact parseLoop_total src del _ Phase.opn 0 0 [] [] (by simp only [pfuel]; omega)
      · rw [if_neg hc]
        simp
    · simp
  · decide

/-- Claim C3: the spec says SplitBytes terminates on every input, with
end-of-input ending the call; the code instead ignores the io.EOF of
Next and keeps scanning, so on the one-byte input consisting of the
opening paren alone it loops forever: no amount of fuel makes the run
return. -/
theorem c3_split_composite_diverges : ∀ fuel, SplitBytes [40] fuel = none := by
  intro fuel
  have hst : runSplit [] fuel (CState.mk 0 [] [] 0 1 false) = none :=
    runSplit_stuck_eof [] fuel _ (by simp) (by simp)
  simp only [SplitBytes]
  norm_num
  exact hst

/-- Claim C4: parsing the nested literal with bytes spelling
two-by-two braces of 1,2 and 3,4 with delimiter comma yields the
dimension vector 2,2 and the flattened row-major elements 1 2 3 4. -/
theorem c4_nested_array_parse :
    parseArrayRun [123, 123, 49, 44, 50, 125, 44, 123, 51, 44, 52, 125, 125] [44] =
      some (ArrResult.ok [2, 2] [some [49], some [50], some [51], some [52]]) := by
  decide

/-- Claim C5: an element is NULL exactly when it is the unquoted 4-byte
span NULL: the literal with bytes 1, NULL, 3 yields the middle element
absent, while the literal holding the quoted spelling of NULL yields
the literal 4-byte string NULL as a present element. -/
theorem c5_null_sentinel :
    parseArrayRun [123, 49, 44, 78, 85, 76, 76, 44, 51, 125] [44] =
      some (ArrResult.ok [3] [some [49], none, some [51]]) ∧
    parseArrayRun [123, 34, 78, 85, 76, 76, 34, 125] [44] =
      some (ArrResult.ok [1] [some [78, 85, 76, 76]]) :=
  ⟨by decide, by decide⟩

/-- Claim C6: whenever parseArray returns without error, the flattened
element count is divisible by every entry of the returned dimension
vector; on the ragged literal of sub-arrays 1,2 and 3 the structural
parse succeeds but the divisibility gate fails with the dimension
mismatch error. -/
theorem c6_rectangularity :
    (∀ src del fuel dims elems,
        parseArray src del fuel = some (ArrResult.ok dims elems) →
        ∀ d ∈ dims, elems.length % d = 0) ∧
      parseArrayRun [123, 123, 49, 44, 50, 125, 44, 123, 51, 125, 125] [44] =
        some (ArrResult.err Err.dimensionMismatch) := by
  constructor
  · intro src del fuel dims elems h
    rw [parseArray] at h
    split at h
    · rename_i c heq
      by_cases hc : c = 123
      · rw [if_pos hc] at h
        exact parseLoop_rect src del fuel Phase.opn 0 0 [] [] dims elems h
      · rw [if_neg hc] at h
        simp at h
    · simp at h
  · decide

/-- Claim C6 witness: the divisibility consequence instantiated at the
two-by-two literal, whose parse succeeds with four elements and
dimension entry 2. -/
theorem c6_rectangularity_witness : (4 : Nat) % 2 = 0 :=
  (c6_rectangularity.1 [123, 123, 49, 44, 50, 125, 44, 123, 51, 44, 52, 125, 125] [44] 73
    [2, 2] [some [49], some [50], some [51], some [52]] (by decide)) 2 (by simp)

/-- Claim C7: ScanLinearArray runs the general parser and rejects any
dimension vector longer than one with the unsupported-dimensionality
error carrying the offending shape and the target type name, and
otherwise returns exactly the general parser's element list; in
particular the two-by-two literal is rejected for int4 while the
flat literal of 1,2,3 yields its three elements. -/
theorem c7_linear_array_entry :
    (∀ src del typ fuel dims elems,
        parseArray src del fuel = some (ArrResult.ok dims elems) →
        ScanLinearArray src del typ fuel =
          some (if 1 < dims.length then LinResult.err (Err.unsupportedDimensionality dims typ)
                else LinResult.ok elems)) ∧
      ScanLinearArrayRun [123, 123, 49, 44, 50, 125, 44, 123, 51, 44, 52, 125, 125] [44] int4 =
        some (LinResult.err (Err.unsupportedDimensionality [2, 2] int4)) ∧
      ScanLinearArrayRun [123, 49, 44, 50, 44, 51, 125] [44] int4 =
        some (LinResult.ok [some [49], some [50], some [51]]) := by
  refine ⟨?_, by decide, by decide⟩
  intro src del typ fuel dims elems h
  rw [ScanLinearArray, h]
  show (if 1 < dims.length then some (LinResult.err (Err.unsupportedDimensionality dims typ))
        else some (LinResult.ok elems)) =
      some (if 1 < dims.length then LinResult.err (Err.unsupportedDimensionality dims typ)
            else LinResult.ok elems)
  split_ifs <;> rfl

/-- Claim C7 witness: the general consequence instantiated at the
two-by-two literal with target type int4. -/
theorem c7_linear_array_entry_witness :
    ScanLinearArray [123, 123, 49, 44, 50, 125, 44, 123, 51, 44, 52, 125, 125] [44] int4 73 =
      some (if 1 < ([2, 2] : List Nat).length
            then LinResult.err (Err.unsupportedDimensionality [2, 2] int4)
            else LinResult.ok [some [49], some [50], some [51], some [52]]) :=
  c7_linear_array_entry.1 _ _ int4 73 [2, 2]
    [some [49], some [50], some [51], some [52]] (by decide)

/-- Claim C8: SplitBytes splits only on unquoted top-level commas,
drops the region-toggling quote bytes, and turns a doubled quote into
one literal quote byte: the literal paren 1 comma quoted a-comma-b
comma 3 yields the three fields 1, a-comma-b, 3, and the doubled-quote
variant yields 1, a-quote-b, 3. -/
theorem c8_composite_split_quoting :
    SplitBytesRun [40, 49, 44, 34, 97, 44, 98, 34, 44, 51, 41] =
      some (SplitResult.ok [[49], [97, 44, 98], [51]]) ∧
    SplitBytesRun [40, 49, 44, 34, 97, 34, 34, 98, 34, 44, 51, 41] =
      some (SplitResult.ok [[49], [97, 34, 98], [51]]) :=
  ⟨by decide, by decide⟩

/-- Claim C9: a terminating SplitBytes call errs exactly when the input
is empty or does not begin with the opening paren, and the error names
the expected paren byte at offset 0; every terminating call on input
that does begin with the paren returns a field list with no error. -/
theorem c9_split_composite_error_contract :
    ∀ src fuel r, SplitBytes src fuel = some r →
      ((src[0]? ≠ some 40 → r = SplitResult.err (Err.expectedAt 40 0)) ∧
       (src[0]? = some 40 → ∃ cs, r = SplitResult.ok cs)) := by
  intro src fuel r h
  rcases hsrc : src[0]? with _ | c
  · simp only [SplitBytes, hsrc] at h
    refine ⟨fun _ => ?_, fun he => Option.noConfusion he⟩
    injection h with h2
    exact h2.symm
  · by_cases hc : c = 40
    · subst hc
      simp only [SplitBytes, hsrc, if_pos rfl] at h
      rcases Option.map_eq_some'.mp h with ⟨a, _, hok⟩
      exact ⟨fun hne => absurd rfl hne, fun _ => ⟨a, hok.symm⟩⟩
    · simp only [SplitBytes, hsrc, if_neg hc] at h
      refine ⟨fun _ => ?_, fun he => ?_⟩
      · injection h with h2
        exact h2.symm
      · injection he with h2
        exact absurd h2 hc

/-- Claim C9 witness: the no-error consequence instantiated at the
literal paren 1 close-paren, which splits into the single field 1. -/
theorem c9_split_composite_error_contract_witness :
    ∃ cs, SplitResult.ok [[49]] = SplitResult.ok cs :=
  (c9_split_composite_error_contract [40, 49, 41] 10 (SplitResult.ok [[49]]) (by decide)).2
    (by decide)

/-- Claim C10: SplitBytes stops as soon as the depth reaches 0, so a run
that terminates with a field list returns the same field list when
arbitrary trailing bytes are appended to the input. -/
theorem c10_trailing_bytes_ignored :
    ∀ src extra fuel cs, SplitBytes src fuel = some (SplitResult.ok cs) →
      SplitBytes (src ++ extra) fuel = some (SplitResult.ok cs) := by
  intro src extra fuel cs h
  rcases src with _ | ⟨c, t⟩
  · simp [SplitBytes] at h
  · by_cases hc : c = 40
    · subst hc
      simp only [SplitBytes, List.cons_append] at h ⊢
      norm_num at h ⊢
      exact runSplit_append t extra fuel _ cs (by simp) h
    · simp [SplitBytes, hc] at h

/-- Claim C10 witness: the trailing-bytes consequence instantiated at
the literal paren 1 close-paren followed by the two bytes x y. -/
theorem c10_trailing_bytes_ignored_witness :
    SplitBytes ([40, 49, 41] ++ [120, 121]) 10 = some (SplitResult.ok [[49]]) :=
  c10_trailing_bytes_ignored [40, 49, 41] [120, 121] 10 [[49]] (by decide)
